import Mathlib

/-!
Verification of the seed-phrases-for-stellar core against its
natural-language specification.

The development shallowly embeds the Python sources
`electrum_mnemonic.py`, `key_derivation.py` and
`seed_phrase_to_stellar_keys.py`.  Python byte strings are `List Nat`
(each entry a byte value), Python text strings are `List Char`
(sequences of Unicode code points), and fallible Python code (raised
exceptions) is `Option`.  External collaborators (the BIP-0039 checker,
the legacy-Electrum word decoder, Python's `unicodedata`) are abstract
parameters, as the spec specifies them only by interface.
-/

namespace Crypto

/-- Reduce to a 64-bit word. -/
def w64 (n : Nat) : Nat := n % (2 ^ 64)

/-- 64-bit modular addition. -/
def add64 (a b : Nat) : Nat := (a + b) % (2 ^ 64)

/-- Right rotation of a 64-bit word by `n` bits. -/
def rotr64 (n x : Nat) : Nat := ((x >>> n) ||| (x <<< (64 - n))) % (2 ^ 64)

/-- The SHA-512 choice function `Ch(e,f,g)`. -/
def shaCh (e f g : Nat) : Nat := (e &&& f) ^^^ ((e ^^^ (2 ^ 64 - 1)) &&& g)

/-- The SHA-512 majority function `Maj(a,b,c)`. -/
def shaMaj (a b c : Nat) : Nat := (a &&& b) ^^^ (a &&& c) ^^^ (b &&& c)

/-- SHA-512 big sigma 0: rotations by 28, 34, 39. -/
def bigSigma0 (x : Nat) : Nat := rotr64 28 x ^^^ rotr64 34 x ^^^ rotr64 39 x

/-- SHA-512 big sigma 1: rotations by 14, 18, 41. -/
def bigSigma1 (x : Nat) : Nat := rotr64 14 x ^^^ rotr64 18 x ^^^ rotr64 41 x

/-- SHA-512 small sigma 0: rotations by 1, 8 and shift by 7. -/
def smallSigma0 (x : Nat) : Nat := rotr64 1 x ^^^ rotr64 8 x ^^^ (x >>> 7)

/-- SHA-512 small sigma 1: rotations by 19, 61 and shift by 6. -/
def smallSigma1 (x : Nat) : Nat := rotr64 19 x ^^^ rotr64 61 x ^^^ (x >>> 6)

/-- The 80 SHA-512 round constants (FIPS 180-4: the first 64 bits of the
fractional parts of the cube roots of the first 80 primes, written in
decimal).  They are validated end to end by the known-answer theorems `sha512_abc_vector`,
`sha512_empty_vector` and `hmac_sha_512_rfc4231_case1` below. -/
def shaK : List Nat := [
  4794697086780616226, 8158064640168781261, 13096744586834688815,
  16840607885511220156, 4131703408338449720, 6480981068601479193,
  10538285296894168987, 12329834152419229976, 15566598209576043074,
  1334009975649890238, 2608012711638119052, 6128411473006802146,
  8268148722764581231, 9286055187155687089, 11230858885718282805,
  13951009754708518548, 16472876342353939154, 17275323862435702243,
  1135362057144423861, 2597628984639134821, 3308224258029322869,
  5365058923640841347, 6679025012923562964, 8573033837759648693,
  10970295158949994411, 12119686244451234320, 12683024718118986047,
  13788192230050041572, 14330467153632333762, 15395433587784984357,
  489312712824947311, 1452737877330783856, 2861767655752347644,
  3322285676063803686, 5560940570517711597, 5996557281743188959,
  7280758554555802590, 8532644243296465576, 9350256976987008742,
  10552545826968843579, 11727347734174303076, 12113106623233404929,
  14000437183269869457, 14369950271660146224, 15101387698204529176,
  15463397548674623760, 17586052441742319658, 1182934255886127544,
  1847814050463011016, 2177327727835720531, 2830643537854262169,
  3796741975233480872, 4115178125766777443, 5681478168544905931,
  6601373596472566643, 7507060721942968483, 8399075790359081724,
  8693463985226723168, 9568029438360202098, 10144078919501101548,
  10430055236837252648, 11840083180663258601, 13761210420658862357,
  14299343276471374635, 14566680578165727644, 15097957966210449927,
  16922976911328602910, 17689382322260857208, 500013540394364858,
  748580250866718886, 1242879168328830382, 1977374033974150939,
  2944078676154940804, 3659926193048069267, 4368137639120453308,
  4836135668995329356, 5532061633213252278, 6448918945643986474,
  6902733635092675308, 7801388544844847127
]

/-- Big-endian byte-list to word. -/
def bytesToW64 (bs : List Nat) : Nat := bs.foldl (fun acc b => acc * 256 + b) 0

/-- Word to 8 big-endian bytes. -/
def w64ToBytes (w : Nat) : List Nat :=
  [(w >>> 56) &&& 0xff, (w >>> 48) &&& 0xff, (w >>> 40) &&& 0xff, (w >>> 32) &&& 0xff,
   (w >>> 24) &&& 0xff, (w >>> 16) &&& 0xff, (w >>> 8) &&& 0xff, w &&& 0xff]

/-- Split a list into chunks of `k` elements (`fuel` bounds recursion;
callers pass the list's length, enough since `1 ≤ k`). -/
def chunks (k : Nat) : Nat → List Nat → List (List Nat)
  | 0, _ => []
  | _, [] => []
  | fuel + 1, l => l.take k :: chunks k fuel (l.drop k)

/-- One step of the SHA-512 message-schedule extension, on the reversed
schedule (head is the most recent word): indices 1, 6, 14, 15 from the
end are `W[t-2]`, `W[t-7]`, `W[t-15]`, `W[t-16]`. -/
def schedStep (wrev : List Nat) : Nat :=
  add64 (add64 (smallSigma1 (wrev.getD 1 0)) (wrev.getD 6 0))
        (add64 (smallSigma0 (wrev.getD 14 0)) (wrev.getD 15 0))

/-- Extend the reversed schedule by `n` words. -/
def schedExtend : Nat → List Nat → List Nat
  | 0, wrev => wrev
  | n + 1, wrev => schedExtend n (schedStep wrev :: wrev)

/-- The 80-word SHA-512 message schedule from a block's 16 words. -/
def schedule (ws16 : List Nat) : List Nat := (schedExtend 64 ws16.reverse).reverse

structure Sha512State where
  a : Nat
  b : Nat
  c : Nat
  d : Nat
  e : Nat
  f : Nat
  g : Nat
  h : Nat

/-- One SHA-512 round: `kw` is the pair (round constant, schedule word). -/
def roundStep (s : Sha512State) (kw : Nat × Nat) : Sha512State :=
  let t1 := add64 s.h (add64 (bigSigma1 s.e) (add64 (shaCh s.e s.f s.g) (add64 kw.1 kw.2)))
  let t2 := add64 (bigSigma0 s.a) (shaMaj s.a s.b s.c)
  ⟨add64 t1 t2, s.a, s.b, s.c, add64 s.d t1, s.e, s.f, s.g⟩

/-- Compress one 128-byte block into the running hash state. -/
def compressBlock (H : Sha512State) (block : List Nat) : Sha512State :=
  let ws := schedule ((chunks 8 block.length block).map bytesToW64)
  let s := (shaK.zip ws).foldl roundStep H
  ⟨add64 H.a s.a, add64 H.b s.b, add64 H.c s.c, add64 H.d s.d,
   add64 H.e s.e, add64 H.f s.f, add64 H.g s.g, add64 H.h s.h⟩

/-- FIPS 180-4 message padding: append `0x80`, zeros, and the message
length in bits as a 16-byte big-endian integer, to a multiple of 128. -/
def sha512pad (msg : List Nat) : List Nat :=
  let l := msg.length
  let zeros := (128 - ((l + 17) % 128)) % 128
  msg ++ 0x80 :: (List.replicate zeros 0 ++
    (w64ToBytes (((8 * l) >>> 64) % 2 ^ 64) ++ w64ToBytes ((8 * l) % 2 ^ 64)))

/-- The initial SHA-512 state. -/
def sha512init : Sha512State :=
  ⟨0x6a09e667f3bcc908, 0xbb67ae8584caa73b, 0x3c6ef372fe94f82b, 0xa54ff53a5f1d36f1,
   0x510e527fade682d1, 0x9b05688c2b3e6c1f, 0x1f83d9abfb41bd6b, 0x5be0cd19137e2179⟩

/-- SHA-512 of a byte list. -/
def sha512 (msg : List Nat) : List Nat :=
  let padded := sha512pad msg
  let fin := (chunks 128 padded.length padded).foldl compressBlock sha512init
  w64ToBytes fin.a ++ w64ToBytes fin.b ++ w64ToBytes fin.c ++ w64ToBytes fin.d ++
  w64ToBytes fin.e ++ w64ToBytes fin.f ++ w64ToBytes fin.g ++ w64ToBytes fin.h

/-- HMAC key preprocessing: hash keys longer than the 128-byte block,
then zero-pad to the block size. -/
def hmacBlockKey (key : List Nat) : List Nat :=
  let k0 := if 128 < key.length then sha512 key else key
  k0 ++ List.replicate (128 - k0.length) 0

/-- HMAC-SHA512 (`hmac.new(key, msg, hashlib.sha512).digest()`): both
Python modules define `hmac_sha_512` this way. -/
def hmac_sha_512 (key msg : List Nat) : List Nat :=
  let k := hmacBlockKey key
  sha512 ((k.map (fun b => b ^^^ 0x5c)) ++ sha512 ((k.map (fun b => b ^^^ 0x36)) ++ msg))

/-- UTF-8 encoding of one code point. -/
def utf8Char (n : Nat) : List Nat :=
  if n < 0x80 then [n]
  else if n < 0x800 then [0xc0 ||| (n >>> 6), 0x80 ||| (n &&& 0x3f)]
  else if n < 0x10000 then
    [0xe0 ||| (n >>> 12), 0x80 ||| ((n >>> 6) &&& 0x3f), 0x80 ||| (n &&& 0x3f)]
  else
    [0xf0 ||| (n >>> 18), 0x80 ||| ((n >>> 12) &&& 0x3f),
     0x80 ||| ((n >>> 6) &&& 0x3f), 0x80 ||| (n &&& 0x3f)]

/-- UTF-8 encoding of a Python text string (`str.encode('utf8')`). -/
def utf8 (cs : List Char) : List Nat := (cs.map (fun c => utf8Char c.toNat)).flatten

/-- PBKDF2 block function `F(password, salt, iterations, i)` with
HMAC-SHA512, accumulating the xor of the `U` chain. -/
def pbkdf2F (pw salt : List Nat) (iters i : Nat) : List Nat :=
  let ser := [(i >>> 24) &&& 0xff, (i >>> 16) &&& 0xff, (i >>> 8) &&& 0xff, i &&& 0xff]
  let u1 := hmac_sha_512 pw (salt ++ ser)
  let rec loop : Nat → List Nat → List Nat → List Nat
    | 0, acc, _ => acc
    | n + 1, acc, u =>
      let u' := hmac_sha_512 pw u
      loop n (List.zipWith (fun a b => a ^^^ b) acc u') u'
  loop (iters - 1) u1 u1

/-- PBKDF2-HMAC-SHA512 (the `pbkdf2` library's `PBKDF2(...).read`). -/
def pbkdf2_hmac_sha512 (pw salt : List Nat) (iters dklen : Nat) : List Nat :=
  ((List.range ((dklen + 63) / 64)).map (fun i => pbkdf2F pw salt iters (i + 1))).flatten.take dklen

end Crypto

namespace ElectrumMnemonic

open Crypto

/-- The fixed table of CJK code-point intervals (`CJK_INTERVALS`), in
source order: CJK Unified Ideographs and extensions B, C, D and A,
compatibility ideographs and their supplement, Kanbun, radicals,
strokes, ideographic description characters, variation selectors
supplement, bopomofo, halfwidth and fullwidth forms, hiragana, katakana
and phonetic extensions, kana supplement, hangul syllables and jamo,
Lisu, Miao, and Yi syllables and radicals. -/
def CJK_INTERVALS : List (Nat × Nat) := [
  (0x4E00, 0x9FFF), (0x3400, 0x4DBF), (0x20000, 0x2A6DF), (0x2A700, 0x2B73F),
  (0x2B740, 0x2B81F), (0xF900, 0xFAFF), (0x2F800, 0x2FA1D), (0x3190, 0x319F),
  (0x2E80, 0x2EFF), (0x2F00, 0x2FDF), (0x31C0, 0x31EF), (0x2FF0, 0x2FFF),
  (0xE0100, 0xE01EF), (0x3100, 0x312F), (0x31A0, 0x31BF), (0xFF00, 0xFFEF),
  (0x3040, 0x309F), (0x30A0, 0x30FF), (0x31F0, 0x31FF), (0x1B000, 0x1B0FF),
  (0xAC00, 0xD7AF), (0x1100, 0x11FF), (0xA960, 0xA97F), (0xD7B0, 0xD7FF),
  (0x3130, 0x318F), (0xA4D0, 0xA4FF), (0x16F00, 0x16F9F), (0xA000, 0xA48F),
  (0xA490, 0xA4CF)
]

/-- `is_CJK(c)`: the code point lies in one of the fixed intervals. -/
def is_CJK (c : Char) : Bool :=
  CJK_INTERVALS.any (fun iv => iv.1 ≤ c.toNat && c.toNat ≤ iv.2)

/-- Membership in Python's `string.whitespace` (the six ASCII whitespace
characters), step 5's `seed[i] in string.whitespace` test. -/
def pyWs (c : Char) : Bool :=
  c.toNat = 0x20 || c.toNat = 0x09 || c.toNat = 0x0a ||
  c.toNat = 0x0d || c.toNat = 0x0b || c.toNat = 0x0c

/-- The characters Python's argument-less `str.split` treats as
whitespace: exactly those with `str.isspace()`. -/
def pyUws (c : Char) : Bool :=
  let n := c.toNat
  (0x09 ≤ n && n ≤ 0x0d) || n = 0x20 || (0x1c ≤ n && n ≤ 0x1f) ||
  n = 0x85 || n = 0xa0 || n = 0x1680 || (0x2000 ≤ n && n ≤ 0x200a) ||
  n = 0x2028 || n = 0x2029 || n = 0x202f || n = 0x205f || n = 0x3000

/-- Worker for `splitWs`, accumulating the current word reversed. -/
def splitWsAux : List Char → List Char → List (List Char)
  | [], acc => if acc.isEmpty then [] else [acc.reverse]
  | c :: cs, acc =>
    if pyUws c then
      if acc.isEmpty then splitWsAux cs [] else acc.reverse :: splitWsAux cs []
    else splitWsAux cs (c :: acc)

/-- Python `str.split()` with no argument: split on runs of whitespace,
dropping empty pieces. -/
def splitWs (s : List Char) : List (List Char) := splitWsAux s []

/-- Python `' '.join(words)`. -/
def joinWords : List (List Char) → List Char
  | [] => []
  | [w] => w
  | w :: ws => w ++ ' ' :: joinWords ws

/-- Python sequence indexing `s[j]`: non-negative indices count from the
front, negative indices from the back, anything out of range raises
`IndexError` (`none`). -/
def pyNth? (s : List Char) (j : Int) : Option Char :=
  if 0 ≤ j then s.get? j.toNat
  else if -(s.length : Int) ≤ j then s.get? (s.length - (-j).toNat)
  else none

/-- The removal condition of `normalize_text`'s step 5 at index `i`
(where `c` is `seed[i]`), with Python's evaluation order:
`seed[i] in string.whitespace` first, then `is_CJK(seed[i-1])`, then
`is_CJK(seed[i+1])`; `none` when an inspected neighbour raises. -/
def rmCondPy (s : List Char) (i : Nat) (c : Char) : Option Bool :=
  if pyWs c then
    match pyNth? s ((i : Int) - 1) with
    | none => none
    | some p =>
      if is_CJK p then
        match pyNth? s ((i : Int) + 1) with
        | none => none
        | some q => some (is_CJK q)
      else some false
  else some false

/-- Worker for `removeCjkSpacesPy`: `i` is the index of the head of the
remaining list in the full string `s`. -/
def rmPyAux (s : List Char) : Nat → List Char → Option (List Char)
  | _, [] => some []
  | i, c :: rest => do
    let b ← rmCondPy s i c
    let tl ← rmPyAux s (i + 1) rest
    pure (if b then tl else c :: tl)

/-- Step 5 of `normalize_text` as the source writes it: the list
comprehension keeps `seed[i]` unless it is whitespace between two CJK
characters, where `seed[i-1]` uses Python indexing (it wraps to the last
character at `i = 0`) and `seed[i+1]` raises `IndexError` at the last
index. -/
def removeCjkSpacesPy (s : List Char) : Option (List Char) := rmPyAux s 0 s

/-- Is an optional neighbour CJK?  A missing neighbour (a string
boundary) counts as non-CJK. -/
def isCJKOpt : Option Char → Bool
  | some c => is_CJK c
  | none => false

/-- Step 5 as the spec words it: total, with boundary positions treated
as non-CJK.  `prev` is the previous character of the original string
(`none` at the start); the next neighbour is the head of the rest.
Claim C9 proves `removeCjkSpacesPy` agrees with it on every collapsed
string. -/
def rmSafe (prev : Option Char) : List Char → List Char
  | [] => []
  | c :: rest =>
    if pyWs c && isCJKOpt prev && isCJKOpt rest.head? then rmSafe (some c) rest
    else c :: rmSafe (some c) rest

/-- The pieces of Python's Unicode machinery used by `normalize_text`:
`unicodedata.normalize('NFKD', s)`, `str.lower`, and the combining-mark
test `unicodedata.combining(c) != 0`.  They depend on the full Unicode
character database, which the spec leaves to the standard library, so
the embedding takes them as abstract parameters. -/
structure UniLib where
  nfkd : List Char → List Char
  lower : List Char → List Char
  combining : Char → Bool

/-- `normalize_text`, step for step: NFKD-normalize, lowercase, remove
combining marks, collapse whitespace runs to single spaces
(`' '.join(seed.split())`), and remove whitespace between CJK
characters (with Python's indexing, hence the `Option`). -/
def normalize_text (U : UniLib) (seed : List Char) : Option (List Char) :=
  let s1 := U.nfkd seed
  let s2 := U.lower s1
  let s3 := s2.filter (fun c => !U.combining c)
  let s4 := joinWords (splitWs s3)
  removeCjkSpacesPy s4

/-- The total normalizer the spec describes (out-of-range neighbours are
non-CJK).  Claim C9 proves `normalize_text` always succeeds and returns
exactly this. -/
def normalize_text_safe (U : UniLib) (seed : List Char) : List Char :=
  let s3 := (U.lower (U.nfkd seed)).filter (fun c => !U.combining c)
  rmSafe none (joinWords (splitWs s3))

/-- `ELECTRUM_SEED_PREFIX = '01'` (standard wallet). -/
def ELECTRUM_SEED_VERSION_STD : List Char := ['0', '1']

/-- `ELECTRUM_SEED_PREFIX_2FA = '101'` (two-factor authentication). -/
def ELECTRUM_SEED_VERSION_2FA : List Char := ['1', '0', '1']

/-- `ELECTRUM_SEED_PREFIX_SW = '100'` (segwit wallet). -/
def ELECTRUM_SEED_VERSION_SW : List Char := ['1', '0', '0']

/-- One lowercase hexadecimal digit. -/
def hexDigit (n : Nat) : Char :=
  if n < 10 then Char.ofNat (48 + n) else Char.ofNat (87 + n)

/-- `bin_to_hexstr`: `binascii.hexlify(x).decode('ascii')`, the
lowercase hex rendering of a byte string. -/
def bin_to_hexstr (x : List Nat) : List Char :=
  (x.map (fun b => [hexDigit (b / 16), hexDigit (b % 16)])).flatten

/-- `is_new_electrum_seed_phrase(x, prefix)`: the lowercase hex digest
of HMAC-SHA512 with key `b'Seed version'` over the phrase's UTF-8 bytes
starts with the version string `pre`. -/
def is_new_electrum_seed_phrase (x : List Char) (pre : List Char) : Bool :=
  let s := bin_to_hexstr (hmac_sha_512 (utf8 "Seed version".data) (utf8 x))
  pre.isPrefixOf s

/-- Modelled from the spec: the legacy (pre-2.0) Electrum wordlist
decoder `old_electrum_mnemonic.mn_decode` is code of this repository
that is not under `src/`; the spec gives only its interface
(`decodeLegacyWords(words) -> bytes | DecodeError`, best effort, any
error treated as "not legacy").  The embedding keeps exactly what
`is_old_electrum_seed_phrase` observes of it: whether decoding the word
list succeeds. -/
def LegacyDecoder : Type := List (List Char) → Bool

/-- `is_old_electrum_seed_phrase`, faithful to the source: the name
`bfh` is defined nowhere in `electrum_mnemonic.py` (and not imported),
so `seed = bfh(seed)` raises `NameError`, the bare `except Exception`
catches it, and `is_hex` is always `False`. -/
def is_old_electrum_seed_phrase (dec : LegacyDecoder) (seed : List Char) : Bool :=
  let words := splitWs seed
  let uses_electrum_words := dec words
  let is_hex := false
  is_hex || (uses_electrum_words && (words.length == 12 || words.length == 24))

/-- Value of one hexadecimal digit, either case (`bytes.fromhex`). -/
def hexVal? (c : Char) : Option Nat :=
  if 0x30 ≤ c.toNat && c.toNat ≤ 0x39 then some (c.toNat - 48)
  else if 0x61 ≤ c.toNat && c.toNat ≤ 0x66 then some (c.toNat - 87)
  else if 0x41 ≤ c.toNat && c.toNat ≤ 0x46 then some (c.toNat - 55)
  else none

/-- Decode a hex string to bytes: pairs of hex digits, failing on odd
length or a non-hex character (Python's `bytes.fromhex`). -/
def hexDecode? : List Char → Option (List Nat)
  | [] => some []
  | [_] => none
  | c1 :: c2 :: rest => do
    let h ← hexVal? c1
    let l ← hexVal? c2
    let tl ← hexDecode? rest
    pure ((16 * h + l) :: tl)

/-- Follows the spec's words for the legacy check: "independently check
whether the phrase, interpreted as a hex string, decodes to exactly 16
or 32 raw bytes; classify as ElectrumLegacy if the decoder succeeded AND
the word count is 12 or 24, OR the hex-decode succeeded with the
required byte length".  This is `is_old_electrum_seed_phrase` as it
would behave with `bfh = bytes.fromhex` in scope; claim C1 compares the
source function against it. -/
def is_old_electrum_seed_phrase_spec (dec : LegacyDecoder) (seed : List Char) : Bool :=
  let words := splitWs seed
  let uses_electrum_words := dec words
  let is_hex := match hexDecode? seed with
    | some bs => bs.length == 16 || bs.length == 32
    | none => false
  is_hex || (uses_electrum_words && (words.length == 12 || words.length == 24))

/-- `electrum_seed_type`: the legacy heuristic first, then the three
new-Electrum version strings in order standard, segwit, 2FA. -/
def electrum_seed_type (dec : LegacyDecoder) (x : List Char) : List Char :=
  if is_old_electrum_seed_phrase dec x then "Old (pre 2.0) Electrum".data
  else if is_new_electrum_seed_phrase x ELECTRUM_SEED_VERSION_STD then "Electrum standard".data
  else if is_new_electrum_seed_phrase x ELECTRUM_SEED_VERSION_SW then "Electrum segwit".data
  else if is_new_electrum_seed_phrase x ELECTRUM_SEED_VERSION_2FA then "Electrum 2FA".data
  else "UNKNOWN".data

end ElectrumMnemonic

namespace KeyDerivation

open Crypto ElectrumMnemonic

/-- `HARDENED = 0x80000000`: the index of the first hardened key. -/
def HARDENED : Nat := 0x80000000

/-- `CURVE = b'ed25519 seed'` (SLIP-0010). -/
def CURVE : List Nat := utf8 "ed25519 seed".data

/-- `key(v)`: the private-key part (left half) of a 64-byte sequence. -/
def key (v : List Nat) : List Nat := v.take 32

/-- `chain_code(v)`: the chain-code part (right half) of a 64-byte
sequence. -/
def chain_code (v : List Nat) : List Nat := v.drop 32

/-- `ser32(i)`: `struct.pack('>L', i)`, the big-endian 4-byte
serialization of a 32-bit unsigned integer; `struct.error` (`none`)
outside `0 ≤ i < 2^32`. -/
def ser32 (i : Int) : Option (List Nat) :=
  if 0 ≤ i ∧ i < 2 ^ 32 then
    some [(i.toNat >>> 24) &&& 0xff, (i.toNat >>> 16) &&& 0xff,
          (i.toNat >>> 8) &&& 0xff, i.toNat &&& 0xff]
  else none

/-- `new_master_key(seed)`: the extended master key, the (private key,
chain code) split of HMAC-SHA512 with key `CURVE` over the seed. -/
def new_master_key (seed : List Nat) : List Nat × List Nat :=
  let h := hmac_sha_512 CURVE seed
  (key h, chain_code h)

/-- Python's bitwise OR of an arbitrary `int` with a non-negative `int`
(two's-complement semantics on negatives), for the source's
`int(e) | HARDENED`: for `a = -(m+1) < 0` the result is
`-((m AND NOT b) + 1)`, and `m AND NOT b = m XOR (m AND b)`. -/
def pyOr (a : Int) (b : Nat) : Int :=
  if a < 0 then Int.negSucc ((-a - 1).toNat ^^^ ((-a - 1).toNat &&& b))
  else ((a.toNat ||| b : Nat) : Int)

/-- `derive(parent_key, parent_chain_code, i)`: the `i`-th extended
child key.  The three `assert`s (32-byte key, 32-byte chain code,
hardened index — "no public derivation for ed25519") fail fast, as does
`ser32` out of range; both are `none`. -/
def derive (parent_key parent_chain_code : List Nat) (i : Int) :
    Option (List Nat × List Nat) :=
  if parent_key.length = 32 ∧ parent_chain_code.length = 32 ∧ ((HARDENED : Nat) : Int) ≤ i then
    (ser32 i).map (fun si =>
      let data := 0x00 :: (parent_key ++ si)
      let h := hmac_sha_512 parent_chain_code data
      (key h, chain_code h))
  else none

/-- Worker for `pySplitSep`, accumulating the current piece reversed. -/
def splitSepAux (sep : Char) : List Char → List Char → List (List Char)
  | [], acc => [acc.reverse]
  | c :: cs, acc =>
    if c == sep then acc.reverse :: splitSepAux sep cs []
    else splitSepAux sep cs (c :: acc)

/-- Python `str.split(sep)` with a one-character separator: empty pieces
are kept. -/
def pySplitSep (sep : Char) (s : List Char) : List (List Char) := splitSepAux sep s []

/-- Python `str.rstrip("'")`: drop every trailing apostrophe. -/
def rstripQuote (el : List Char) : List Char :=
  (el.reverse.dropWhile (fun c => c.toNat == 39)).reverse

/-- The element strings of a derivation path, source line
`list(element.rstrip("'") for element in path.split('/'))[1:]`. -/
def pathElements (path : List Char) : List (List Char) :=
  ((pySplitSep '/' path).map rstripQuote).drop 1

/-- Python `int(e)` on a string, restricted to the forms the path code
can meet after `rstrip`: an optional sign followed by ASCII digits (the
builtin also strips whitespace and allows underscores; such elements do
not occur in the paths this program builds). -/
def digitsVal? (ds : List Char) : Option Nat :=
  if ds.isEmpty || !(ds.all (fun c => 0x30 ≤ c.toNat && c.toNat ≤ 0x39)) then none
  else some (ds.foldl (fun acc c => 10 * acc + (c.toNat - 48)) 0)

/-- Python `int(e)` with an optional leading sign. -/
def pyInt? : List Char → Option Int
  | c :: ds =>
    if c.toNat == 0x2d then (digitsVal? ds).map (fun n => -(n : Int))
    else if c.toNat == 0x2b then (digitsVal? ds).map (fun n => (n : Int))
    else (digitsVal? (c :: ds)).map (fun n => (n : Int))
  | [] => none

/-- `derive_along_path(path, seed)`: starting from the extended master
key, fold `derive` with index `int(e) | HARDENED` over the path
elements in order and return the final private key (the chain code is
discarded).  `int(e)` on a malformed element raises (`none`), inside
the loop as in the source. -/
def derive_along_path (path : List Char) (seed : List Nat) : Option (List Nat) := do
  let elements := pathElements path
  let init := new_master_key seed
  let fin ← elements.foldlM (fun kc el => do
    let i ← pyInt? el
    derive kc.1 kc.2 (pyOr i HARDENED)) init
  pure fin.1

/-- Follows the spec's words (4.4, `masterKey`): HMAC-SHA512 with key
the 12-byte ASCII literal "ed25519 seed" and message the seed; the left
32 bytes are the private key, the right 32 the chain code. -/
def masterKey (seed : List Nat) : List Nat × List Nat :=
  let h := hmac_sha_512 (utf8 "ed25519 seed".data) seed
  (h.take 32, h.drop 32)

/-- Follows the spec's words (4.4, `childKey` at a hardened index):
replace (key, chain code) by the split of HMAC-SHA512 with key the
chain code and message `0x00 || key || big-endian-4-byte(index)`. -/
def childKey (kc : List Nat × List Nat) (index : Nat) : List Nat × List Nat :=
  let h := hmac_sha_512 kc.2 (0x00 :: (kc.1 ++
    [(index >>> 24) &&& 0xff, (index >>> 16) &&& 0xff,
     (index >>> 8) &&& 0xff, index &&& 0xff]))
  (h.take 32, h.drop 32)

/-- Follows the spec's words (4.4, `deriveAlongPath`): OR each path
integer against the hardened bit, fold `childKey` over the list in path
order starting from `masterKey(seed)`, and return the final private
key.  Claim C2 proves `derive_along_path` refines this. -/
def deriveAlongPath (idxs : List Nat) (seed : List Nat) : List Nat :=
  (idxs.foldl (fun kc e => childKey kc (e ||| HARDENED)) (masterKey seed)).1

end KeyDerivation

namespace SeedPhraseToStellarKeys

open Crypto ElectrumMnemonic

/-- The BIP-0039 validity checker `Mnemonic(language).check`: an
external library the spec only sketches by interface; the embedding
abstracts it, the `language` argument absorbed into the function. -/
def Bip39Checker : Type := List Char → Bool

/-- The `seed_phrase_type` string `to_binary_seed` computes:
`'BIP-0039'`, possibly extended with the first matching Electrum
variant, when the BIP-0039 check passes; otherwise
`electrum_seed_type`. -/
def tbs_type (check : Bip39Checker) (dec : LegacyDecoder) (p : List Char) : List Char :=
  if check p then
    "BIP-0039".data ++
      (if is_new_electrum_seed_phrase p ELECTRUM_SEED_VERSION_STD then
        " and Electrum standard".data
       else if is_new_electrum_seed_phrase p ELECTRUM_SEED_VERSION_SW then
        " and Electrum segwit".data
       else if is_new_electrum_seed_phrase p ELECTRUM_SEED_VERSION_2FA then
        " and Electrum 2FA".data
       else [])
  else electrum_seed_type dec p

/-- The salt `to_binary_seed` builds: `'mnemonic' + passphrase` in the
BIP-0039 branch, else `'electrum' + passphrase` when the Electrum type
is not `'UNKNOWN'`, else `'non-standard' + passphrase`.  `p` and `pw`
are the already-normalized phrase and passphrase. -/
def tbs_salt (check : Bip39Checker) (dec : LegacyDecoder) (p pw : List Char) : List Char :=
  if check p then "mnemonic".data ++ pw
  else
    (if electrum_seed_type dec p ≠ "UNKNOWN".data then "electrum".data
     else "non-standard".data) ++ pw

/-- The body of `to_binary_seed` once both inputs are normalized:
`PBKDF2(seed_phrase, salt, iterations=2048, hmac, sha512).read(64)`
paired with the type string. -/
def tbs_core (check : Bip39Checker) (dec : LegacyDecoder) (p pw : List Char) :
    List Nat × List Char :=
  (pbkdf2_hmac_sha512 (utf8 p) (utf8 (tbs_salt check dec p pw)) 2048 64,
   tbs_type check dec p)

/-- `to_binary_seed(seed_phrase, passphrase, language)`: normalize both
inputs with `normalize_text`, classify, and stretch with
PBKDF2-HMAC-SHA512 (2048 iterations, 64 bytes). -/
def to_binary_seed (U : UniLib) (check : Bip39Checker) (dec : LegacyDecoder)
    (seed_phrase passphrase : List Char) : Option (List Nat × List Char) := do
  let p ← normalize_text U seed_phrase
  let pw ← normalize_text U passphrase
  pure (tbs_core check dec p pw)

/-- The salt prefix as a pure function of the classified type, as the
spec words it: `"mnemonic"` for any BIP-0039 variant, `"non-standard"`
for `UNKNOWN`, `"electrum"` for any Electrum variant.  Claim C6 proves
the salt `to_binary_seed` builds is this function of its type. -/
def salt_of_type (ty : List Char) : List Char :=
  if "BIP-0039".data.isPrefixOf ty then "mnemonic".data
  else if ty = "UNKNOWN".data then "non-standard".data
  else "electrum".data

end SeedPhraseToStellarKeys

open Crypto ElectrumMnemonic KeyDerivation SeedPhraseToStellarKeys

set_option maxRecDepth 40000
set_option maxHeartbeats 4000000

/-- The 64-byte binary seed of the source's `selftest` (hex
`e4a5a632...82f186`). -/
def selftestSeed : List Nat :=
  [0xe4, 0xa5, 0xa6, 0x32, 0xe7, 0x09, 0x43, 0xae, 0x7f, 0x07, 0x65, 0x9d,
   0xf1, 0x33, 0x21, 0x60, 0x93, 0x7f, 0xad, 0x82, 0x58, 0x72, 0x16, 0xa4,
   0xc6, 0x43, 0x15, 0xa0, 0xfb, 0x39, 0x49, 0x7e, 0xe4, 0xa0, 0x1f, 0x76,
   0xdd, 0xab, 0x4c, 0xba, 0x68, 0x14, 0x79, 0x77, 0xf3, 0xa1, 0x47, 0xb6,
   0xad, 0x58, 0x4c, 0x41, 0x80, 0x8e, 0x82, 0x38, 0xa0, 0x7f, 0x6c, 0xc4,
   0xb5, 0x82, 0xf1, 0x86]

/-- The 32-byte private key the selftest expects for `m/44'/148'` (hex
`e0eec84f...dd22e3`). -/
def selftestKey : List Nat :=
  [0xe0, 0xee, 0xc8, 0x4f, 0xe1, 0x65, 0xcd, 0x42, 0x7c, 0xb7, 0xbc, 0x9b,
   0x6c, 0xfd, 0xef, 0x05, 0x55, 0xaa, 0x1c, 0xb6, 0xf9, 0x04, 0x3f, 0xf1,
   0xfe, 0x98, 0x6c, 0x3c, 0x8d, 0xdd, 0x22, 0xe3]

/-- The 32-character pure-hex phrase of sixteen `00` bytes. -/
def hexPhrase32 : List Char := List.replicate 32 '0'
/-- The key of account 0 under the selftest seed: the value of
`derive_along_path("m/44'/148'/0'", selftestSeed)` (hex
`4d691bc1...a74691`). -/
def selftestAcct0Key : List Nat :=
  [0x4d, 0x69, 0x1b, 0xc1, 0x9b, 0x44, 0xa1, 0x38, 0x3b, 0x1a, 0x0a, 0x13,
   0x0a, 0xac, 0xa3, 0xe0, 0x5c, 0x3c, 0x1a, 0x37, 0x1d, 0xbe, 0x45, 0x93,
   0x0e, 0xf9, 0xb7, 0x61, 0xf7, 0xa7, 0x46, 0x91]
/-- The 12-word phrase whose seed-version digest begins with `01`
(hex digest `01cb7fab...`). -/
def phrase01 : List Char :=
  "seed seed seed seed seed seed seed seed seed seed seed w78".data
/-- A legacy decoder that accepts exactly the 12-word lists, as the
real legacy decoder does on phrases of twelve legacy-wordlist words. -/
def dec12 : LegacyDecoder := fun ws => ws.length == 12
/-- The identity Unicode library: on plain lowercase ASCII input (no
marks, single spaces) the real NFKD, lowercasing and combining-mark
test act exactly like this. -/
def idUni : UniLib := ⟨id, id, fun _ => false⟩
/-- A word `str.split()` produces: nonempty, and free of split
whitespace. -/
def goodWord (w : List Char) : Prop := w ≠ [] ∧ ∀ c ∈ w, pyUws c = false
/-- Merge adjacent words whose junction characters are both CJK: the
word-level picture of step 5's space removal on a collapsed string. -/
def mergeCJK : List (List Char) → List (List Char)
  | [] => []
  | w :: ws =>
    match mergeCJK ws with
    | [] => [w]
    | w' :: ws' =>
      if isCJKOpt w.getLast? && isCJKOpt w'.head? then (w ++ w') :: ws'
      else w :: w' :: ws'
/-- No two adjacent words form a CJK junction. -/
def noJunc : List (List Char) → Prop
  | [] => True
  | [_] => True
  | w :: w' :: ws =>
    (isCJKOpt w.getLast? && isCJKOpt w'.head?) = false ∧ noJunc (w' :: ws)

/-- SHA-512 known-answer test, FIPS 180-4 example: the digest of
`"abc"`.  With the empty-string and HMAC vectors below this validates
the embedded SHA-512 (round constants included) against the standard. -/
theorem sha512_abc_vector :
    sha512 (utf8 "abc".data) =
      [0xdd, 0xaf, 0x35, 0xa1, 0x93, 0x61, 0x7a, 0xba, 0xcc, 0x41, 0x73, 0x49,
       0xae, 0x20, 0x41, 0x31, 0x12, 0xe6, 0xfa, 0x4e, 0x89, 0xa9, 0x7e, 0xa2,
       0x0a, 0x9e, 0xee, 0xe6, 0x4b, 0x55, 0xd3, 0x9a, 0x21, 0x92, 0x99, 0x2a,
       0x27, 0x4f, 0xc1, 0xa8, 0x36, 0xba, 0x3c, 0x23, 0xa3, 0xfe, 0xeb, 0xbd,
       0x45, 0x4d, 0x44, 0x23, 0x64, 0x3c, 0xe8, 0x0e, 0x2a, 0x9a, 0xc9, 0x4f,
       0xa5, 0x4c, 0xa4, 0x9f] := by decide

/-- SHA-512 known-answer test: the digest of the empty message. -/
theorem sha512_empty_vector :
    sha512 [] =
      [0xcf, 0x83, 0xe1, 0x35, 0x7e, 0xef, 0xb8, 0xbd, 0xf1, 0x54, 0x28, 0x50,
       0xd6, 0x6d, 0x80, 0x07, 0xd6, 0x20, 0xe4, 0x05, 0x0b, 0x57, 0x15, 0xdc,
       0x83, 0xf4, 0xa9, 0x21, 0xd3, 0x6c, 0xe9, 0xce, 0x47, 0xd0, 0xd1, 0x3c,
       0x5d, 0x85, 0xf2, 0xb0, 0xff, 0x83, 0x18, 0xd2, 0x87, 0x7e, 0xec, 0x2f,
       0x63, 0xb9, 0x31, 0xbd, 0x47, 0x41, 0x7a, 0x81, 0xa5, 0x38, 0x32, 0x7a,
       0xf9, 0x27, 0xda, 0x3e] := by decide

/-- HMAC-SHA512 known-answer test, RFC 4231 test case 1. -/
theorem hmac_sha_512_rfc4231_case1 :
    hmac_sha_512 (List.replicate 20 0x0b) (utf8 "Hi There".data) =
      [0x87, 0xaa, 0x7c, 0xde, 0xa5, 0xef, 0x61, 0x9d, 0x4f, 0xf0, 0xb4, 0x24,
       0x1a, 0x1d, 0x6c, 0xb0, 0x23, 0x79, 0xf4, 0xe2, 0xce, 0x4e, 0xc2, 0x78,
       0x7a, 0xd0, 0xb3, 0x05, 0x45, 0xe1, 0x7c, 0xde, 0xda, 0xa8, 0x33, 0xb7,
       0xd6, 0xb8, 0xa7, 0x02, 0x03, 0x8b, 0x27, 0x4e, 0xae, 0xa3, 0xf4, 0xe4,
       0xbe, 0x9d, 0x91, 0x4e, 0xeb, 0x61, 0xf1, 0x70, 0x2e, 0x69, 0x6c, 0x20,
       0x3a, 0x12, 0x68, 0x54] := by decide

/-- Every SHA-512 digest is 64 bytes. -/
theorem sha512_length (m : List Nat) : (sha512 m).length = 64 := rfl

/-- Every HMAC-SHA512 digest is 64 bytes. -/
theorem hmac_sha_512_length (k m : List Nat) : (hmac_sha_512 k m).length = 64 :=
  sha512_length _

/-- The private-key half of a digest is 32 bytes. -/
theorem key_hmac_length (k m : List Nat) : (key (hmac_sha_512 k m)).length = 32 := by
  simp [key, hmac_sha_512_length]

/-- The chain-code half of a digest is 32 bytes. -/
theorem chain_code_hmac_length (k m : List Nat) :
    (chain_code (hmac_sha_512 k m)).length = 32 := by
  simp [chain_code, hmac_sha_512_length]

/-- Claim C4: for the selftest's 64-byte seed, `derive_along_path`
applied to the path string `m/44'/148'` returns exactly the expected
32 bytes `e0eec84f...dd22e3`. -/
theorem derive_along_path_selftest_vector :
    derive_along_path "m/44'/148'".data selftestSeed = some selftestKey := by decide

/-- A natural number never decreases under bitwise OR. -/
theorem left_le_or (x y : Nat) : x ≤ x ||| y := by
  induction x using Nat.strong_induction_on generalizing y with
  | _ x ih =>
    match x with
    | 0 => exact Nat.zero_le _
    | x + 1 =>
      have h2 : (x + 1) / 2 ≤ (x + 1) / 2 ||| y / 2 := ih ((x + 1) / 2) (by omega) (y / 2)
      have hd : (x + 1 ||| y) / 2 = (x + 1) / 2 ||| y / 2 := Nat.or_div_two
      have hm : (x + 1) % 2 ≤ (x + 1 ||| y) % 2 := by
        rcases Nat.mod_two_eq_zero_or_one (x + 1) with h | h
        · simp [h]
        · have : (x + 1 ||| y) % 2 = 1 := Nat.or_mod_two_eq_one.mpr (Or.inl h)
          omega
      omega

/-- Claim C7: with a well-formed 32-byte parent key and chain code,
`derive` fails fast (the hardened-index assert) on every index below
2^31 and never returns a key there; on every hardened index in the
32-bit range it succeeds and returns a child extended key. -/
theorem derive_hardened_only (k c : List Nat) (i : Int)
    (hk : k.length = 32) (hc : c.length = 32) :
    (i < 2 ^ 31 → derive k c i = none) ∧
    (2 ^ 31 ≤ i → i < 2 ^ 32 → (derive k c i).isSome = true) := by
  constructor
  · intro hi
    rw [derive, if_neg]
    rintro ⟨-, -, h⟩
    rw [HARDENED] at h
    norm_num at h
    omega
  · intro h1 h2
    rw [derive, if_pos ⟨hk, hc, by rw [HARDENED]; norm_num; omega⟩, ser32,
      if_pos ⟨by omega, h2⟩]
    rfl

/-- Witness for C7 at the zero key and chain code and index 2^31. -/
theorem derive_hardened_only_witness :
    (((2 ^ 31 : Int) < 2 ^ 31 →
       derive (List.replicate 32 0) (List.replicate 32 0) (2 ^ 31) = none) ∧
     ((2 ^ 31 : Int) ≤ 2 ^ 31 → (2 ^ 31 : Int) < 2 ^ 32 →
       (derive (List.replicate 32 0) (List.replicate 32 0) (2 ^ 31)).isSome = true)) :=
  derive_hardened_only (List.replicate 32 0) (List.replicate 32 0) (2 ^ 31)
    (by decide) (by decide)

/-- Claim C1 (the code bug): whatever the legacy word decoder answers,
the source's `is_old_electrum_seed_phrase` rejects the pure 16-byte hex
phrase `hexPhrase32` (the name `bfh` is unbound, so the hex route
always fails) and `electrum_seed_type` never classifies it as legacy,
while the spec's acceptance rule — a hex string of 16 or 32 raw
bytes — accepts it. -/
theorem is_old_hex_route_dead (dec : LegacyDecoder) :
    is_old_electrum_seed_phrase dec hexPhrase32 = false ∧
    electrum_seed_type dec hexPhrase32 ≠ "Old (pre 2.0) Electrum".data ∧
    is_old_electrum_seed_phrase_spec dec hexPhrase32 = true := by
  have hw : (splitWs hexPhrase32).length = 1 := by decide
  have h1 : is_old_electrum_seed_phrase dec hexPhrase32 = false := by
    rw [is_old_electrum_seed_phrase, hw]
    simp
  refine ⟨h1, ?_, ?_⟩
  · rw [electrum_seed_type, if_neg (by rw [h1]; exact Bool.false_ne_true)]
    split
    · intro h; exact absurd (congrArg List.length h) (by decide)
    split
    · intro h; exact absurd (congrArg List.length h) (by decide)
    split
    · intro h; exact absurd (congrArg List.length h) (by decide)
    · intro h; exact absurd (congrArg List.length h) (by decide)
  · rw [is_old_electrum_seed_phrase_spec, hw]
    have hh : hexDecode? hexPhrase32 = some (List.replicate 16 0) := by decide
    rw [hh]
    simp

/-- The private-key half of a spec `childKey` is 32 bytes. -/
theorem childKey_fst_length (kc : List Nat × List Nat) (i : Nat) :
    (childKey kc i).1.length = 32 := by
  simp [childKey, hmac_sha_512_length]

/-- The chain-code half of a spec `childKey` is 32 bytes. -/
theorem childKey_snd_length (kc : List Nat × List Nat) (i : Nat) :
    (childKey kc i).2.length = 32 := by
  simp [childKey, hmac_sha_512_length]

/-- On a 31-bit index with a well-formed parent, the source's `derive`
at Python's `int(e) | HARDENED` computes exactly the spec's `childKey`
at the hardened index. -/
theorem derive_eq_childKey (kc : List Nat × List Nat) (e : Nat) (he : e < 2 ^ 31)
    (h1 : kc.1.length = 32) (h2 : kc.2.length = 32) :
    derive kc.1 kc.2 (pyOr (e : Int) HARDENED) = some (childKey kc (e ||| HARDENED)) := by
  have hor : pyOr (e : Int) HARDENED = ((e ||| HARDENED : Nat) : Int) := by
    rw [pyOr, if_neg (by exact Int.not_lt.mpr (Int.natCast_nonneg e))]
    simp
  have hge : (HARDENED : Nat) ≤ e ||| HARDENED := by
    rw [Nat.or_comm]; exact left_le_or _ _
  have hlt : e ||| HARDENED < 2 ^ 32 := by
    refine Nat.or_lt_two_pow (by omega) (by rw [HARDENED]; norm_num)
  rw [hor, derive, if_pos ⟨h1, h2, by exact_mod_cast hge⟩, ser32,
    if_pos ⟨by exact_mod_cast Nat.zero_le _, by exact_mod_cast hlt⟩]
  simp [childKey, key, chain_code]

/-- The loop of `derive_along_path` succeeds step by step on path
elements whose integers are 31-bit, computing the spec's `childKey`
fold. -/
theorem foldlM_derive_eq_spec (els : List (List Char)) (ints : List Int)
    (kc : List Nat × List Nat)
    (hm : els.mapM pyInt? = some ints)
    (hr : ∀ i ∈ ints, 0 ≤ i ∧ i < 2 ^ 31)
    (h1 : kc.1.length = 32) (h2 : kc.2.length = 32) :
    (els.foldlM (fun kc el => do
      let i ← pyInt? el
      derive kc.1 kc.2 (pyOr i HARDENED)) kc) =
    some (ints.foldl (fun kc i => childKey kc (i.toNat ||| HARDENED)) kc) := by
  induction els generalizing ints kc with
  | nil =>
    rw [List.mapM_nil] at hm
    cases hm
    simp
  | cons el rest ih =>
    rw [List.mapM_cons] at hm
    cases hp : pyInt? el with
    | none => rw [hp] at hm; simp at hm
    | some i =>
      rw [hp] at hm
      cases hrest : rest.mapM pyInt? with
      | none => rw [hrest] at hm; simp at hm
      | some is =>
        rw [hrest] at hm
        simp only [Option.pure_def, Option.bind_some, Option.bind_eq_bind] at hm
        cases hm
        have hi := hr i (by simp)
        have hstep : derive kc.1 kc.2 (pyOr i HARDENED) =
            some (childKey kc (i.toNat ||| HARDENED)) := by
          have : i = ((i.toNat : Nat) : Int) := (Int.toNat_of_nonneg hi.1).symm
          rw [this]
          exact derive_eq_childKey kc i.toNat (by omega) h1 h2
        rw [List.foldlM_cons]
        simp only [hp, Option.bind_some, Option.bind_eq_bind, Option.some_bind]
        rw [hstep]
        simp only [Option.some_bind]
        rw [List.foldl_cons]
        exact ih is (childKey kc (i.toNat ||| HARDENED)) hrest
          (fun j hj => hr j (by simp [hj]))
          (childKey_fst_length kc _) (childKey_snd_length kc _)

/-- `new_master_key` is definitionally the spec's `masterKey`. -/
theorem new_master_key_eq_masterKey : new_master_key = masterKey := rfl

/-- The master private key is 32 bytes. -/
theorem new_master_key_fst_length (seed : List Nat) :
    (new_master_key seed).1.length = 32 := by
  simp [new_master_key, key, hmac_sha_512_length]

/-- The master chain code is 32 bytes. -/
theorem new_master_key_snd_length (seed : List Nat) :
    (new_master_key seed).2.length = 32 := by
  simp [new_master_key, chain_code, hmac_sha_512_length]

/-- Claim C2: for every 64-byte seed and every path whose elements all
parse as 31-bit integers `idxs`, `derive_along_path` returns exactly
the private-key half of the spec's fold: start from `masterKey(seed)`,
fold `childKey` over the indices OR-ed with the hardened bit 2^31 in
path order, and discard the final chain code. -/
theorem derive_along_path_refines_spec (path : List Char) (seed : List Nat) (idxs : List Nat)
    (hparse : (pathElements path).mapM pyInt? = some (idxs.map (fun n : Nat => (n : Int))))
    (hrange : ∀ e ∈ idxs, e < 2 ^ 31) (hseed : seed.length = 64) :
    derive_along_path path seed = some (deriveAlongPath idxs seed) := by
  have hr : ∀ i ∈ idxs.map (fun n : Nat => (n : Int)), 0 ≤ i ∧ i < 2 ^ 31 := by
    intro i hi
    simp only [List.mem_map] at hi
    obtain ⟨n, hn, rfl⟩ := hi
    exact ⟨Int.natCast_nonneg n, by exact_mod_cast hrange n hn⟩
  rw [derive_along_path]
  rw [foldlM_derive_eq_spec (pathElements path) (idxs.map (fun n : Nat => (n : Int)))
    (new_master_key seed) hparse hr (new_master_key_fst_length seed)
    (new_master_key_snd_length seed)]
  simp [deriveAlongPath, new_master_key_eq_masterKey, List.foldl_map]

/-- Witness for C2: the selftest path and seed against the spec fold at
indices 44 and 148. -/
theorem derive_along_path_refines_spec_witness :
    derive_along_path "m/44'/148'".data selftestSeed =
      some (deriveAlongPath [44, 148] selftestSeed) :=
  derive_along_path_refines_spec "m/44'/148'".data selftestSeed [44, 148]
    (by decide) (by decide) (by decide)

/-- Claim C3 (counterexample): account number 2^31 = 2147483648 lies
outside the 31-bit range, yet the path is not rejected —
`derive_along_path` silently succeeds, and returns exactly the key of
account 0: `int(e) | HARDENED` is a no-op on an index whose bit 31 is
already set, so the out-of-range account aliases a coerced in-range
one. -/
theorem derive_along_path_accepts_account_2pow31 :
    derive_along_path "m/44'/148'/2147483648'".data selftestSeed = some selftestAcct0Key ∧
    derive_along_path "m/44'/148'/0'".data selftestSeed = some selftestAcct0Key := by
  exact ⟨by decide, by decide⟩

/-- `derive` fails fast whenever the index is below the hardened bound,
whatever the parent: the assert refuses before anything is computed. -/
theorem derive_not_hardened (k c : List Nat) (i : Int) (hi : i < 2 ^ 31) :
    derive k c i = none := by
  rw [derive, if_neg]
  rintro ⟨-, -, h⟩
  rw [HARDENED] at h
  norm_num at h
  omega

/-- `derive` fails whenever the index exceeds 32 bits: `ser32` raises
`struct.error`. -/
theorem derive_overflow (k c : List Nat) (i : Int) (hi : (2 ^ 32 : Int) ≤ i) :
    derive k c i = none := by
  rw [derive]
  split
  · rw [ser32, if_neg]
    · rfl
    rintro ⟨-, h⟩
    omega
  · rfl

/-- `derive` succeeds on a well-formed parent and a hardened 32-bit
index. -/
theorem derive_succeeds (k c : List Nat) (i : Int)
    (hk : k.length = 32) (hc : c.length = 32)
    (h1 : (2 ^ 31 : Int) ≤ i) (h2 : i < 2 ^ 32) :
    (derive k c i).isSome = true := by
  rw [derive, if_pos ⟨hk, hc, by rw [HARDENED]; norm_num; omega⟩, ser32,
    if_pos ⟨by omega, h2⟩]
  rfl

/-- Python's `int(e) | HARDENED` is negative on a negative `e`. -/
theorem pyOr_neg (e : Int) (b : Nat) (h : e < 0) : pyOr e b < 0 := by
  rw [pyOr, if_pos h]
  exact Int.negSucc_lt_zero _

/-- Python's `int(e) | HARDENED` on a non-negative `e` is the natural
bitwise OR. -/
theorem pyOr_nonneg (e : Int) (b : Nat) (h : 0 ≤ e) :
    pyOr e b = ((e.toNat ||| b : Nat) : Int) := by
  rw [pyOr, if_neg (by omega)]

/-- Claim C3 as amended: for a path of the shape `m/44'/148'/N'`, a
negative account is rejected (the hardened-index assert fails fast) and
an account at or above 2^32 is rejected (4-byte serialization fails),
but an account in `[2^31, 2^32)` is not rejected: derivation silently
succeeds, treating the account as the already-hardened index it
aliases. -/
theorem derive_along_path_account_out_of_range (path se : List Char) (e : Int)
    (seed : List Nat)
    (hpe : pathElements path = ["44".data, "148".data, se])
    (hint : pyInt? se = some e) :
    (e < 0 → derive_along_path path seed = none) ∧
    (2 ^ 32 ≤ e → derive_along_path path seed = none) ∧
    (2 ^ 31 ≤ e → e < 2 ^ 32 → (derive_along_path path seed).isSome = true) := by
  have hsplit : ["44".data, "148".data, se] = ["44".data, "148".data] ++ [se] := rfl
  have htwo : (["44".data, "148".data] : List (List Char)).mapM pyInt? =
      some (([44, 148] : List Nat).map (fun n : Nat => (n : Int))) := by decide
  have hr : ∀ i ∈ ([44, 148] : List Nat).map (fun n : Nat => (n : Int)),
      0 ≤ i ∧ i < 2 ^ 31 := by decide
  have hfold : ∀ z : Option (List Nat),
      ((derive
        (([44, 148].map (fun n : Nat => (n : Int))).foldl
          (fun kc i => childKey kc (i.toNat ||| HARDENED)) (new_master_key seed)).1
        (([44, 148].map (fun n : Nat => (n : Int))).foldl
          (fun kc i => childKey kc (i.toNat ||| HARDENED)) (new_master_key seed)).2
        (pyOr e HARDENED)).bind (fun k3 => some k3.1)) = z →
      derive_along_path path seed = z := by
    intro z hz
    rw [derive_along_path, hpe, hsplit, List.foldlM_append,
      foldlM_derive_eq_spec ["44".data, "148".data]
        (([44, 148] : List Nat).map (fun n : Nat => (n : Int)))
        (new_master_key seed) htwo hr (new_master_key_fst_length seed)
        (new_master_key_snd_length seed)]
    simp only [Option.bind_eq_bind, Option.some_bind, List.foldlM_cons,
      List.foldlM_nil, hint, Option.pure_def]
    rw [← hz]
    cases derive
        (([44, 148].map (fun n : Nat => (n : Int))).foldl
          (fun kc i => childKey kc (i.toNat ||| HARDENED)) (new_master_key seed)).1
        (([44, 148].map (fun n : Nat => (n : Int))).foldl
          (fun kc i => childKey kc (i.toNat ||| HARDENED)) (new_master_key seed)).2
        (pyOr e HARDENED) with
    | none => rfl
    | some k3 => rfl
  refine ⟨fun hneg => ?_, fun hbig => ?_, fun hlo hhi => ?_⟩
  · apply hfold
    rw [derive_not_hardened _ _ _ (lt_trans (pyOr_neg e HARDENED hneg) (by norm_num))]
    rfl
  · apply hfold
    have h0 : (0 : Int) ≤ e := by omega
    rw [pyOr_nonneg e HARDENED h0, derive_overflow]
    · rfl
    have htn : (2 ^ 32 : Nat) ≤ e.toNat := by omega
    exact_mod_cast le_trans htn (left_le_or _ _)
  · rw [hfold _ rfl]
    have h0 : (0 : Int) ≤ e := by omega
    rw [pyOr_nonneg e HARDENED h0]
    have hge : (2 ^ 31 : Nat) ≤ e.toNat ||| HARDENED := by
      have h1 : (HARDENED : Nat) ≤ e.toNat ||| HARDENED := by
        rw [Nat.or_comm]; exact left_le_or _ _
      have h2 : (HARDENED : Nat) = 2 ^ 31 := by norm_num [HARDENED]
      omega
    have hlt : e.toNat ||| HARDENED < 2 ^ 32 := by
      refine Nat.or_lt_two_pow (by omega) (by rw [HARDENED]; norm_num)
    have hs := derive_succeeds
      (([44, 148].map (fun n : Nat => (n : Int))).foldl
        (fun kc i => childKey kc (i.toNat ||| HARDENED)) (new_master_key seed)).1
      (([44, 148].map (fun n : Nat => (n : Int))).foldl
        (fun kc i => childKey kc (i.toNat ||| HARDENED)) (new_master_key seed)).2
      ((e.toNat ||| HARDENED : Nat) : Int)
      (by simp only [List.map_cons, List.map_nil, List.foldl_cons, List.foldl_nil]
          exact childKey_fst_length _ _)
      (by simp only [List.map_cons, List.map_nil, List.foldl_cons, List.foldl_nil]
          exact childKey_snd_length _ _)
      (by exact_mod_cast hge) (by exact_mod_cast hlt)
    obtain ⟨v, hv⟩ := Option.isSome_iff_exists.mp hs
    rw [hv]
    rfl

/-- Witness for the amended C3 at account 2^31 + 1 = 2147483649. -/
theorem derive_along_path_account_out_of_range_witness :
    ((2147483649 : Int) < 0 →
      derive_along_path "m/44'/148'/2147483649'".data selftestSeed = none) ∧
    ((2 ^ 32 : Int) ≤ 2147483649 →
      derive_along_path "m/44'/148'/2147483649'".data selftestSeed = none) ∧
    ((2 ^ 31 : Int) ≤ 2147483649 → (2147483649 : Int) < 2 ^ 32 →
      (derive_along_path "m/44'/148'/2147483649'".data selftestSeed).isSome = true) :=
  derive_along_path_account_out_of_range "m/44'/148'/2147483649'".data
    "2147483649".data 2147483649 selftestSeed (by decide) (by decide)

/-- Claim C5 (counterexample): the digest of `phrase01` starts with
"01" and the phrase is not BIP-0039-valid, yet classification answers
the legacy type, not `'Electrum standard'`: `electrum_seed_type` runs
the legacy heuristic first and it accepts the twelve words. -/
theorem electrum_standard_preempted_by_legacy :
    is_new_electrum_seed_phrase phrase01 ELECTRUM_SEED_VERSION_STD = true ∧
    (to_binary_seed idUni (fun _ => false) dec12 phrase01 []).map Prod.snd =
      some "Old (pre 2.0) Electrum".data ∧
    "Old (pre 2.0) Electrum".data ≠ "Electrum standard".data := by
  refine ⟨by decide, by decide, by decide⟩

/-- Every answer of `electrum_seed_type` is one of its five strings. -/
theorem electrum_seed_type_mem (dec : LegacyDecoder) (x : List Char) :
    electrum_seed_type dec x = "Old (pre 2.0) Electrum".data ∨
    electrum_seed_type dec x = "Electrum standard".data ∨
    electrum_seed_type dec x = "Electrum segwit".data ∨
    electrum_seed_type dec x = "Electrum 2FA".data ∨
    electrum_seed_type dec x = "UNKNOWN".data := by
  rw [electrum_seed_type]
  split_ifs <;> simp

/-- Claim C5 as amended: a phrase whose seed-version digest starts with
"01" classifies as `'Electrum standard'` when it is neither
BIP-0039-valid nor accepted by the legacy heuristic (the legacy check
runs first), and as `'BIP-0039 and Electrum standard'` when it is
BIP-0039-valid. -/
theorem seed_version_01_classification (U : UniLib) (check : Bip39Checker)
    (dec : LegacyDecoder) (p pw p' pw' : List Char)
    (hp : normalize_text U p = some p') (hpw : normalize_text U pw = some pw')
    (h01 : is_new_electrum_seed_phrase p' ELECTRUM_SEED_VERSION_STD = true) :
    (check p' = false → is_old_electrum_seed_phrase dec p' = false →
      (to_binary_seed U check dec p pw).map Prod.snd =
        some "Electrum standard".data) ∧
    (check p' = true →
      (to_binary_seed U check dec p pw).map Prod.snd =
        some "BIP-0039 and Electrum standard".data) := by
  have hbody : (to_binary_seed U check dec p pw).map Prod.snd =
      some (tbs_type check dec p') := by
    rw [to_binary_seed, hp, hpw]
    rfl
  constructor
  · intro hc hold
    rw [hbody, tbs_type, if_neg (by rw [hc]; exact Bool.false_ne_true),
      electrum_seed_type, if_neg (by rw [hold]; exact Bool.false_ne_true),
      if_pos h01]
  · intro hc
    rw [hbody, tbs_type, if_pos hc, if_pos h01]
    rfl

/-- Witness for the amended C5 at `phrase01` with an always-false
BIP-0039 checker and an always-failing legacy decoder. -/
theorem seed_version_01_classification_witness :
    (((fun _ => false) : Bip39Checker) phrase01 = false →
      is_old_electrum_seed_phrase (fun _ => false) phrase01 = false →
      (to_binary_seed idUni (fun _ => false) (fun _ => false) phrase01 []).map Prod.snd =
        some "Electrum standard".data) ∧
    (((fun _ => false) : Bip39Checker) phrase01 = true →
      (to_binary_seed idUni (fun _ => false) (fun _ => false) phrase01 []).map Prod.snd =
        some "BIP-0039 and Electrum standard".data) :=
  seed_version_01_classification idUni (fun _ => false) (fun _ => false)
    phrase01 [] phrase01 [] (by decide) (by decide) (by decide)

/-- Claim C6: the salt `to_binary_seed` hands to PBKDF2-HMAC-SHA512
(2048 iterations, 64 output bytes) is a pure function of the classified
type — `"mnemonic"` + normalized passphrase for the BIP-0039 variants,
`"electrum"` + it for every Electrum variant (legacy included),
`"non-standard"` + it for `UNKNOWN` — and the derived binary seed is
PBKDF2 of the normalized phrase under exactly that salt. -/
theorem to_binary_seed_salt_of_type (U : UniLib) (check : Bip39Checker)
    (dec : LegacyDecoder) (p pw p' pw' : List Char)
    (hp : normalize_text U p = some p') (hpw : normalize_text U pw = some pw') :
    tbs_salt check dec p' pw' = salt_of_type (tbs_type check dec p') ++ pw' ∧
    to_binary_seed U check dec p pw =
      some (pbkdf2_hmac_sha512 (utf8 p') (utf8 (tbs_salt check dec p' pw')) 2048 64,
        tbs_type check dec p') := by
  constructor
  · rw [tbs_salt, tbs_type]
    cases hc : check p' with
    | true =>
      rw [if_pos rfl, if_pos rfl, salt_of_type,
        if_pos (List.isPrefixOf_iff_prefix.mpr (List.prefix_append _ _))]
    | false =>
      rw [if_neg Bool.false_ne_true, if_neg Bool.false_ne_true]
      have hmem := electrum_seed_type_mem dec p'
      rcases hmem with h | h | h | h | h <;> rw [h] <;> exact congrArg (· ++ pw') (by decide)
  · rw [to_binary_seed, hp, hpw]
    rfl

/-- Witness for C6 on a plain two-word phrase with an always-false
checker and decoder. -/
theorem to_binary_seed_salt_of_type_witness :
    tbs_salt (fun _ => false) (fun _ => false) "zq vx".data "pp".data =
      salt_of_type (tbs_type (fun _ => false) (fun _ => false) "zq vx".data) ++ "pp".data ∧
    to_binary_seed idUni (fun _ => false) (fun _ => false) "zq vx".data "pp".data =
      some (pbkdf2_hmac_sha512 (utf8 "zq vx".data)
        (utf8 (tbs_salt (fun _ => false) (fun _ => false) "zq vx".data "pp".data)) 2048 64,
        tbs_type (fun _ => false) (fun _ => false) "zq vx".data) :=
  to_binary_seed_salt_of_type idUni (fun _ => false) (fun _ => false)
    "zq vx".data "pp".data "zq vx".data "pp".data (by decide) (by decide)

/-- `string.whitespace` characters are split whitespace. -/
theorem pyWs_implies_pyUws (c : Char) (h : pyWs c = true) : pyUws c = true := by
  rw [pyWs] at h
  rw [pyUws]
  simp only [Bool.or_eq_true, Bool.and_eq_true, decide_eq_true_eq] at h ⊢
  omega

/-- Words accumulated by `splitWsAux` are nonempty and whitespace-free. -/
theorem splitWsAux_good (s : List Char) : ∀ (acc : List Char),
    (∀ c ∈ acc, pyUws c = false) → ∀ w ∈ splitWsAux s acc, goodWord w := by
  induction s with
  | nil =>
    intro acc hacc w hw
    rw [splitWsAux] at hw
    split at hw
    · cases hw
    · rename_i hne
      rcases List.mem_singleton.mp hw with rfl
      refine ⟨fun hrev => hne ?_, fun c hc => hacc c (List.mem_reverse.mp hc)⟩
      rw [List.isEmpty_iff]
      rw [← List.reverse_nil] at hrev
      exact List.reverse_injective hrev
  | cons c cs ih =>
    intro acc hacc w hw
    rw [splitWsAux] at hw
    split at hw
    · split at hw
      · exact ih [] (by simp) w hw
      · rename_i hne
        rcases List.mem_cons.mp hw with rfl | hw'
        · refine ⟨fun hrev => hne ?_, fun d hd => hacc d (List.mem_reverse.mp hd)⟩
          rw [List.isEmpty_iff]
          rw [← List.reverse_nil] at hrev
          exact List.reverse_injective hrev
        · exact ih [] (by simp) w hw'
    · rename_i huws
      refine ih (c :: acc) ?_ w hw
      intro d hd
      rcases List.mem_cons.mp hd with rfl | hd'
      · exact Bool.not_eq_true _ ▸ Bool.eq_false_iff.mpr huws
      · exact hacc d hd'

/-- Every word of `splitWs` is nonempty and whitespace-free. -/
theorem splitWs_good (s : List Char) : ∀ w ∈ splitWs s, goodWord w :=
  splitWsAux_good s [] (by simp)

/-- `splitWsAux` passes over a whitespace-free block accumulating it. -/
theorem splitWsAux_append (w : List Char) (hw : ∀ c ∈ w, pyUws c = false) :
    ∀ (r acc : List Char),
    splitWsAux (w ++ r) acc = splitWsAux r (w.reverse ++ acc) := by
  induction w with
  | nil => intro r acc; simp
  | cons c cs ih =>
    intro r acc
    have hc : pyUws c = false := hw c (by simp)
    rw [List.cons_append, splitWsAux, if_neg (by rw [hc]; exact Bool.false_ne_true),
      ih (fun d hd => hw d (by simp [hd])) r (c :: acc)]
    simp [List.append_assoc]

/-- `joinWords` on a single word. -/
theorem joinWords_single (w : List Char) : joinWords [w] = w := rfl

/-- `joinWords` separates two or more words by one space. -/
theorem joinWords_pair (w w2 : List Char) (ws : List (List Char)) :
    joinWords (w :: w2 :: ws) = w ++ ' ' :: joinWords (w2 :: ws) := rfl

/-- `split` round-trips over `join` on good words. -/
theorem splitWs_joinWords (ws : List (List Char)) (h : ∀ w ∈ ws, goodWord w) :
    splitWs (joinWords ws) = ws := by
  induction ws with
  | nil => rfl
  | cons w ws ih =>
    obtain ⟨hne, hch⟩ := h w (by simp)
    cases ws with
    | nil =>
      rw [joinWords_single, splitWs]
      have hs := splitWsAux_append w hch [] []
      rw [List.append_nil] at hs
      rw [hs, splitWsAux]
      rw [if_neg (by simp [List.isEmpty_iff, hne])]
      simp
    | cons w2 ws' =>
      rw [joinWords_pair, splitWs, splitWsAux_append w hch _ []]
      rw [splitWsAux, if_pos (by decide)]
      rw [if_neg (by simp [List.isEmpty_iff, hne])]
      rw [List.append_nil, List.reverse_reverse]
      exact congrArg (w :: ·) (ih (fun u hu => h u (by simp [hu])))

/-- `joinWords` of a cons is nonempty when its head word is. -/
theorem joinWords_ne_nil (w : List Char) (ws : List (List Char)) (hne : w ≠ []) :
    joinWords (w :: ws) ≠ [] := by
  cases ws with
  | nil => exact hne
  | cons w2 ws' =>
    rw [joinWords_pair]
    intro hcontra
    rcases List.append_eq_nil.mp hcontra with ⟨h1, -⟩
    exact hne h1

/-- The first character of a join is the first character of its first
word. -/
theorem joinWords_head? (w : List Char) (ws : List (List Char)) (hne : w ≠ []) :
    (joinWords (w :: ws)).head? = w.head? := by
  cases ws with
  | nil => rfl
  | cons w2 ws' =>
    rw [joinWords_pair, List.head?_append]
    cases w with
    | nil => exact absurd rfl hne
    | cons c cs => rfl

/-- The last character of a join is the last character of one of its
words. -/
theorem joinWords_getLast? (ws : List (List Char)) (hws : ∀ w ∈ ws, w ≠ []) :
    ∀ c, (joinWords ws).getLast? = some c → ∃ w ∈ ws, w.getLast? = some c := by
  induction ws with
  | nil => intro c hc; cases hc
  | cons w ws ih =>
    intro c hc
    cases ws with
    | nil => exact ⟨w, by simp, hc⟩
    | cons w2 ws' =>
      rw [joinWords_pair, List.getLast?_append] at hc
      have hjoin := joinWords_ne_nil w2 ws' (hws w2 (by simp))
      cases hj : joinWords (w2 :: ws') with
      | nil => exact absurd hj hjoin
      | cons d ds =>
        rw [hj, List.getLast?_cons_cons] at hc
        have hsome : (d :: ds).getLast? ≠ none := by
          simp [← List.getLast?_isSome, Option.isSome_iff_ne_none]
        cases hlast : (d :: ds).getLast? with
        | none => exact absurd hlast hsome
        | some a =>
          rw [hlast] at hc
          cases hc
          obtain ⟨u, hu, hul⟩ := ih (fun v hv => hws v (by simp [hv])) c (hj ▸ hlast)
          exact ⟨u, by simp [hu], hul⟩

/-- Every character of a join is a space or a character of a word. -/
theorem mem_joinWords (c : Char) : ∀ (ws : List (List Char)),
    c ∈ joinWords ws → c = ' ' ∨ ∃ w ∈ ws, c ∈ w := by
  intro ws
  induction ws with
  | nil => intro h; cases h
  | cons w ws ih =>
    cases ws with
    | nil => intro h; exact Or.inr ⟨w, by simp, h⟩
    | cons w2 ws' =>
      rw [joinWords_pair]
      intro h
      rcases List.mem_append.mp h with h' | h'
      · exact Or.inr ⟨w, by simp, h'⟩
      · rcases List.mem_cons.mp h' with rfl | h''
        · exact Or.inl rfl
        · rcases ih h'' with h3 | ⟨u, hu, hcu⟩
          · exact Or.inl h3
          · exact Or.inr ⟨u, by simp [hu], hcu⟩

/-- Unfolding `mergeCJK` when the tail merges to nothing. -/
theorem mergeCJK_eq_nilcase (w : List Char) (ws : List (List Char))
    (hm : mergeCJK ws = []) : mergeCJK (w :: ws) = [w] := by
  rw [mergeCJK, hm]

/-- Unfolding `mergeCJK` when the tail merges to a cons. -/
theorem mergeCJK_eq_conscase (w u : List Char) (us ws : List (List Char))
    (hm : mergeCJK ws = u :: us) :
    mergeCJK (w :: ws) =
      if isCJKOpt w.getLast? && isCJKOpt u.head? then (w ++ u) :: us
      else w :: u :: us := by
  rw [mergeCJK, hm]

/-- `mergeCJK` keeps the first word as a prefix of its first output
word. -/
theorem mergeCJK_cons_shape (w : List Char) (ws : List (List Char)) :
    ∃ x ys, mergeCJK (w :: ws) = (w ++ x) :: ys := by
  cases hm : mergeCJK ws with
  | nil => exact ⟨[], [], by rw [mergeCJK_eq_nilcase w ws hm, List.append_nil]⟩
  | cons u us =>
    rw [mergeCJK_eq_conscase w u us ws hm]
    by_cases hc : (isCJKOpt w.getLast? && isCJKOpt u.head?) = true
    · exact ⟨u, us, by rw [if_pos hc]⟩
    · exact ⟨[], u :: us, by rw [if_neg hc, List.append_nil]⟩

/-- `mergeCJK` preserves good words. -/
theorem mergeCJK_good : ∀ (ws : List (List Char)), (∀ w ∈ ws, goodWord w) →
    ∀ v ∈ mergeCJK ws, goodWord v := by
  intro ws
  induction ws with
  | nil => intro _ v hv; cases hv
  | cons w tl ih =>
    intro h v hv
    cases hm : mergeCJK tl with
    | nil =>
      rw [mergeCJK_eq_nilcase w tl hm] at hv
      rcases List.mem_singleton.mp hv with rfl
      exact h v (by simp)
    | cons u us =>
      have hrec := ih (fun z hz => h z (by simp [hz]))
      have hu : goodWord u := hrec u (by rw [hm]; simp)
      have hus : ∀ z ∈ us, goodWord z := fun z hz => hrec z (by rw [hm]; simp [hz])
      rw [mergeCJK_eq_conscase w u us tl hm] at hv
      split at hv
      · rcases List.mem_cons.mp hv with rfl | hv'
        · obtain ⟨hw1, hw2⟩ := h w (by simp)
          refine ⟨by simp [hw1], fun c hc => ?_⟩
          rcases List.mem_append.mp hc with h' | h'
          · exact hw2 c h'
          · exact hu.2 c h'
        · exact hus v hv'
      · rcases List.mem_cons.mp hv with rfl | hv'
        · exact h v (by simp)
        · rcases List.mem_cons.mp hv' with rfl | hv''
          · exact hu
          · exact hus v hv''

/-- Every character of a merged word list comes from the original
words. -/
theorem mem_mergeCJK (c : Char) : ∀ (ws : List (List Char)) (v : List Char),
    v ∈ mergeCJK ws → c ∈ v → ∃ w ∈ ws, c ∈ w := by
  intro ws
  induction ws with
  | nil => intro v hv _; cases hv
  | cons w tl ih =>
    intro v hv hc
    cases hm : mergeCJK tl with
    | nil =>
      rw [mergeCJK_eq_nilcase w tl hm] at hv
      rcases List.mem_singleton.mp hv with rfl
      exact ⟨v, by simp, hc⟩
    | cons u us =>
      rw [mergeCJK_eq_conscase w u us tl hm] at hv
      split at hv
      · rcases List.mem_cons.mp hv with rfl | hv'
        · rcases List.mem_append.mp hc with h' | h'
          · exact ⟨w, by simp, h'⟩
          · obtain ⟨z, hz, hcz⟩ := ih u (by rw [hm]; simp) h'
            exact ⟨z, by simp [hz], hcz⟩
        · obtain ⟨z, hz, hcz⟩ := ih v (by rw [hm]; simp [hv']) hc
          exact ⟨z, by simp [hz], hcz⟩
      · rcases List.mem_cons.mp hv with rfl | hv'
        · exact ⟨v, by simp, hc⟩
        · obtain ⟨z, hz, hcz⟩ := ih v (by rw [hm]; exact hv') hc
          exact ⟨z, by simp [hz], hcz⟩

/-- Appending to a nonempty list keeps its first element. -/
theorem head?_append_left (w x : List Char) (hne : w ≠ []) :
    (w ++ x).head? = w.head? := by
  cases w with
  | nil => exact absurd rfl hne
  | cons c cs => rfl

/-- Appending a nonempty list on the right determines the last
element. -/
theorem getLast?_append_right (w u : List Char) (hne : u ≠ []) :
    (w ++ u).getLast? = u.getLast? := by
  rw [List.getLast?_append]
  cases hu : u.getLast? with
  | none => exact absurd (List.getLast?_isSome.mpr hne) (by rw [hu]; simp)
  | some a => rfl

/-- `rmSafe` keeps a whitespace-free list unchanged. -/
theorem rmSafe_nonWs (w : List Char) (hw : ∀ c ∈ w, pyWs c = false) :
    ∀ p, rmSafe p w = w := by
  induction w with
  | nil => intro p; rfl
  | cons c cs ih =>
    intro p
    rw [rmSafe, if_neg (by rw [hw c (by simp)]; simp)]
    exact congrArg (c :: ·) (ih (fun d hd => hw d (by simp [hd])) (some c))

/-- `rmSafe` passes over a nonempty whitespace-free block, leaving the
context at its last character. -/
theorem rmSafe_word_append (w : List Char) (hne : w ≠ [])
    (hw : ∀ c ∈ w, pyWs c = false) :
    ∀ (p : Option Char) (rest : List Char),
    rmSafe p (w ++ rest) = w ++ rmSafe w.getLast? rest := by
  induction w with
  | nil => exact absurd rfl hne
  | cons c cs ih =>
    intro p rest
    rw [List.cons_append, rmSafe, if_neg (by rw [hw c (by simp)]; simp)]
    cases cs with
    | nil => rfl
    | cons d cs' =>
      rw [ih (by simp) (fun z hz => hw z (by simp [hz])) (some c) rest]
      rfl

/-- Step 5 on a join of good words merges exactly the CJK junctions:
the word-level picture of the space removal. -/
theorem rmSafe_joinWords : ∀ (ws : List (List Char)),
    (∀ w ∈ ws, goodWord w) →
    ∀ p, rmSafe p (joinWords ws) = joinWords (mergeCJK ws) := by
  intro ws
  induction ws with
  | nil => intro _ p; rfl
  | cons w tl ih =>
    intro h p
    obtain ⟨hne, hch⟩ := h w (by simp)
    have hchws : ∀ c ∈ w, pyWs c = false := fun c hc =>
      Bool.eq_false_iff.mpr (fun habs =>
        Bool.false_ne_true ((hch c hc).symm.trans (pyWs_implies_pyUws c habs)))
    cases tl with
    | nil =>
      rw [joinWords_single, mergeCJK_eq_nilcase w [] rfl, joinWords_single]
      exact rmSafe_nonWs w hchws p
    | cons w2 tl' =>
      obtain ⟨hne2, -⟩ := h w2 (by simp)
      obtain ⟨x, ys, hshape⟩ := mergeCJK_cons_shape w2 tl'
      have hmerged : ∀ v ∈ mergeCJK (w2 :: tl'), goodWord v :=
        mergeCJK_good (w2 :: tl') (fun z hz => h z (by simp [hz]))
      have hw2x : w2 ++ x ≠ [] := (hmerged (w2 ++ x) (by rw [hshape]; simp)).1
      rw [joinWords_pair, rmSafe_word_append w hne hchws p]
      rw [rmSafe]
      rw [joinWords_head? w2 tl' hne2]
      have hnext : isCJKOpt (w2 ++ x).head? = isCJKOpt w2.head? := by
        rw [head?_append_left w2 x hne2]
      have hcond : (pyWs ' ' && isCJKOpt w.getLast? && isCJKOpt w2.head?) =
          (isCJKOpt w.getLast? && isCJKOpt w2.head?) := by
        rw [show pyWs ' ' = true from by decide, Bool.true_and]
      rw [mergeCJK_eq_conscase w (w2 ++ x) ys (w2 :: tl') hshape, hnext]
      have hrec := ih (fun z hz => h z (by simp [hz])) (some ' ')
      cases hb : (isCJKOpt w.getLast? && isCJKOpt w2.head?) with
      | true =>
        rw [if_pos (by rw [hcond, hb]), if_pos rfl]
        rw [hrec, hshape]
        cases ys with
        | nil => rw [joinWords_single, joinWords_single]
        | cons y ys' => rw [joinWords_pair, joinWords_pair]; simp [List.append_assoc]
      | false =>
        rw [if_neg (by rw [hcond, hb]; exact Bool.false_ne_true),
          if_neg (by simp)]
        rw [hrec, hshape, joinWords_pair]

/-- The output of `mergeCJK` has no CJK junction left. -/
theorem mergeCJK_noJunc : ∀ (ws : List (List Char)),
    (∀ w ∈ ws, goodWord w) → noJunc (mergeCJK ws) := by
  intro ws
  induction ws with
  | nil => intro _; trivial
  | cons w tl ih =>
    intro h
    cases hm : mergeCJK tl with
    | nil => rw [mergeCJK_eq_nilcase w tl hm]; trivial
    | cons u us =>
      have hJ : noJunc (u :: us) := hm ▸ ih (fun z hz => h z (by simp [hz]))
      have hu : goodWord u :=
        mergeCJK_good tl (fun z hz => h z (by simp [hz])) u (by rw [hm]; simp)
      rw [mergeCJK_eq_conscase w u us tl hm]
      cases hb : (isCJKOpt w.getLast? && isCJKOpt u.head?) with
      | true =>
        rw [if_pos rfl]
        cases us with
        | nil => trivial
        | cons u2 us' =>
          obtain ⟨hj1, hj2⟩ := hJ
          exact ⟨by rw [getLast?_append_right w u hu.1]; exact hj1, hj2⟩
      | false =>
        rw [if_neg (by simp)]
        exact ⟨hb, hJ⟩

/-- `mergeCJK` is the identity on junction-free word lists. -/
theorem noJunc_mergeCJK_id : ∀ (ws : List (List Char)), noJunc ws →
    mergeCJK ws = ws := by
  intro ws
  induction ws with
  | nil => intro _; rfl
  | cons w tl ih =>
    intro hJ
    cases tl with
    | nil => exact mergeCJK_eq_nilcase w [] rfl
    | cons w2 tl' =>
      obtain ⟨hj1, hj2⟩ := hJ
      rw [mergeCJK_eq_conscase w w2 tl' (w2 :: tl') (ih hj2),
        if_neg (by rw [hj1]; exact Bool.false_ne_true)]

/-- Indexing is the head of the drop. -/
theorem get?_eq_head?_drop (s : List Char) : ∀ (i : Nat),
    s.get? i = (s.drop i).head? := by
  induction s with
  | nil => intro i; cases i <;> rfl
  | cons a t ih =>
    intro i
    cases i with
    | zero => rfl
    | succ n => rw [List.drop_succ_cons, List.get?_cons_succ]; exact ih n

/-- A cons-shaped drop determines the element at its index. -/
theorem drop_cons_get? {s : List Char} {i : Nat} {c : Char} {rest : List Char}
    (h : s.drop i = c :: rest) : s.get? i = some c := by
  rw [get?_eq_head?_drop, h]; rfl

/-- A cons-shaped drop determines the next drop. -/
theorem drop_cons_succ {s : List Char} {i : Nat} {c : Char} {rest : List Char}
    (h : s.drop i = c :: rest) : s.drop (i + 1) = rest := by
  rw [← List.tail_drop, h]; rfl

/-- A singleton drop pins the last element of the list. -/
theorem getLast?_of_drop_singleton {s : List Char} {i : Nat} {c : Char}
    (h : s.drop i = [c]) : s.getLast? = some c := by
  conv_lhs => rw [← List.take_append_drop i s]
  rw [List.getLast?_append, h]
  rfl

/-- The faithful Python step 5 agrees, position by position, with the
boundary-safe recursion on any string whose first and last characters
are not whitespace: the removal condition is only evaluated at interior
whitespace, where both neighbours exist. -/
theorem rmPyAux_eq_rmSafe (s : List Char)
    (hh : ∀ c, s.head? = some c → pyWs c = false)
    (hl : ∀ c, s.getLast? = some c → pyWs c = false) :
    ∀ (rest : List Char) (i : Nat), s.drop i = rest →
    rmPyAux s i rest = some (rmSafe (if i = 0 then none else s.get? (i - 1)) rest) := by
  intro rest
  induction rest with
  | nil => intro i _; rfl
  | cons c rest' ih =>
    intro i hdrop
    have hgi : s.get? i = some c := drop_cons_get? hdrop
    have hdrop' : s.drop (i + 1) = rest' := drop_cons_succ hdrop
    have hstep := ih (i + 1) hdrop'
    rw [if_neg (Nat.succ_ne_zero i), Nat.add_sub_cancel, hgi] at hstep
    by_cases hws : pyWs c = true
    · have hi0 : i ≠ 0 := by
        intro h0
        subst h0
        rw [List.drop_zero] at hdrop
        have hhead : s.head? = some c := by rw [hdrop]; rfl
        rw [hh c hhead] at hws
        exact Bool.false_ne_true hws
      cases rest' with
      | nil =>
        exfalso
        have hlast := getLast?_of_drop_singleton hdrop
        rw [hl c hlast] at hws
        exact Bool.false_ne_true hws
      | cons d rest'' =>
        have hgi1 : s.get? (i + 1) = some d := drop_cons_get? hdrop'
        have hlen : i < s.length := by
          by_contra hcon
          rw [List.get?_eq_none.mpr (by omega)] at hgi
          cases hgi
        obtain ⟨p, hp⟩ : ∃ p, s.get? (i - 1) = some p := by
          cases hq : s.get? (i - 1) with
          | none => exact absurd (List.get?_eq_none.mp hq) (by omega)
          | some p => exact ⟨p, rfl⟩
        have hn1 : pyNth? s ((i : Int) - 1) = some p := by
          rw [pyNth?, if_pos (by omega)]
          have ht : ((i : Int) - 1).toNat = i - 1 := by omega
          rw [ht, hp]
        have hn2 : pyNth? s ((i : Int) + 1) = some d := by
          rw [pyNth?, if_pos (by omega)]
          have ht : ((i : Int) + 1).toNat = i + 1 := by omega
          rw [ht, hgi1]
        have hcond : rmCondPy s i c = some (is_CJK p && is_CJK d) := by
          rw [rmCondPy, if_pos hws, hn1]
          cases hcp : is_CJK p with
          | true => simp [hcp, hn2]
          | false => simp [hcp]
        rw [rmPyAux, hcond]
        simp only [Option.bind_eq_bind, Option.some_bind]
        rw [hstep]
        simp only [Option.some_bind]
        rw [if_neg hi0, hp]
        have hc2 : (pyWs c && isCJKOpt (some p) && isCJKOpt (d :: rest'').head?) =
            (is_CJK p && is_CJK d) := by
          rw [hws, Bool.true_and]
          rfl
        have hrhs : rmSafe (some p) (c :: d :: rest'') =
            if (is_CJK p && is_CJK d) = true then rmSafe (some c) (d :: rest'')
            else c :: rmSafe (some c) (d :: rest'') := by
          conv_lhs => rw [rmSafe]
          rw [hc2]
        rw [hrhs]
        rfl
    · have hws' : pyWs c = false := Bool.eq_false_iff.mpr hws
      have hcond : rmCondPy s i c = some false := by
        rw [rmCondPy, if_neg hws]
      rw [rmPyAux, hcond]
      simp only [Option.bind_eq_bind, Option.some_bind]
      rw [hstep]
      simp only [Option.some_bind]
      have hrhs : rmSafe (if i = 0 then none else s.get? (i - 1)) (c :: rest') =
          c :: rmSafe (some c) rest' := by
        conv_lhs => rw [rmSafe]
        rw [if_neg (by rw [hws']; simp)]
      rw [hrhs]
      rfl

/-- A character outside the split-whitespace set is outside
`string.whitespace` too. -/
theorem not_uws_not_ws {c : Char} (h : pyUws c = false) : pyWs c = false := by
  cases hw : pyWs c with
  | false => rfl
  | true => rw [pyWs_implies_pyUws c hw] at h; cases h

/-- The faithful step 5, on any string with non-whitespace first and
last characters, never raises and computes the boundary-safe result. -/
theorem rmPy_eq_rmSafe (t : List Char)
    (hh : ∀ c, t.head? = some c → pyWs c = false)
    (hl : ∀ c, t.getLast? = some c → pyWs c = false) :
    removeCjkSpacesPy t = some (rmSafe none t) := by
  have h := rmPyAux_eq_rmSafe t hh hl t 0 rfl
  rw [if_pos rfl] at h
  exact h

/-- A collapsed string starts with a non-whitespace character. -/
theorem joinWords_splitWs_head_ws (s3 : List Char) :
    ∀ c, (joinWords (splitWs s3)).head? = some c → pyWs c = false := by
  intro c hc
  cases hsp : splitWs s3 with
  | nil => rw [hsp] at hc; cases hc
  | cons w ws =>
    obtain ⟨hne, hch⟩ := splitWs_good s3 w (by rw [hsp]; simp)
    rw [hsp, joinWords_head? w ws hne] at hc
    exact not_uws_not_ws (hch c (List.mem_of_mem_head? (Option.mem_def.mpr hc)))

/-- A collapsed string ends with a non-whitespace character. -/
theorem joinWords_splitWs_last_ws (s3 : List Char) :
    ∀ c, (joinWords (splitWs s3)).getLast? = some c → pyWs c = false := by
  intro c hc
  obtain ⟨w, hw, hwl⟩ := joinWords_getLast? (splitWs s3)
    (fun w hw => (splitWs_good s3 w hw).1) c hc
  exact not_uws_not_ws
    ((splitWs_good s3 w hw).2 c (List.mem_of_getLast?_eq_some hwl))

/-- `normalize_text` never fails and computes the spec's total,
boundary-safe normalizer. -/
theorem normalize_text_eq_safe (U : UniLib) (s : List Char) :
    normalize_text U s = some (normalize_text_safe U s) := by
  show removeCjkSpacesPy
      (joinWords (splitWs ((U.lower (U.nfkd s)).filter (fun c => !U.combining c)))) =
    some (rmSafe none
      (joinWords (splitWs ((U.lower (U.nfkd s)).filter (fun c => !U.combining c)))))
  exact rmPy_eq_rmSafe _ (joinWords_splitWs_head_ws _) (joinWords_splitWs_last_ws _)

/-- Characters of split words come from the split string. -/
theorem splitWsAux_mem (s : List Char) : ∀ (acc w : List Char) (c : Char),
    w ∈ splitWsAux s acc → c ∈ w → c ∈ s ∨ c ∈ acc := by
  induction s with
  | nil =>
    intro acc w c hw hc
    rw [splitWsAux] at hw
    split at hw
    · cases hw
    · rcases List.mem_singleton.mp hw with rfl
      exact Or.inr (List.mem_reverse.mp hc)
  | cons a cs ih =>
    intro acc w c hw hc
    rw [splitWsAux] at hw
    split at hw
    · split at hw
      · rcases ih [] w c hw hc with h | h
        · exact Or.inl (by simp [h])
        · cases h
      · rcases List.mem_cons.mp hw with rfl | hw'
        · exact Or.inr (List.mem_reverse.mp hc)
        · rcases ih [] w c hw' hc with h | h
          · exact Or.inl (by simp [h])
          · cases h
    · rcases ih (a :: acc) w c hw hc with h | h
      · exact Or.inl (by simp [h])
      · rcases List.mem_cons.mp h with rfl | h'
        · exact Or.inl (by simp)
        · exact Or.inr h'

/-- Characters of `splitWs` words come from the source string. -/
theorem mem_splitWs {s3 w : List Char} {c : Char}
    (hw : w ∈ splitWs s3) (hc : c ∈ w) : c ∈ s3 := by
  rcases splitWsAux_mem s3 [] w c hw hc with h | h
  · exact h
  · cases h

/-- The output of `normalize_text` is a fixed point of `normalize_text`
whenever the Unicode library fixes it (the real NFKD and lowercasing
are the identity on the already-normalized output, and the space is not
a combining mark). -/
theorem normalize_text_fixpoint (U : UniLib) (s r : List Char)
    (h : normalize_text U s = some r)
    (hn : U.nfkd r = r) (hlo : U.lower r = r) (hcsp : U.combining ' ' = false) :
    normalize_text U r = some r := by
  have hs := normalize_text_eq_safe U s
  rw [h] at hs
  have hr0 : r = normalize_text_safe U s := Option.some.inj hs
  set s3 := (U.lower (U.nfkd s)).filter (fun c => !U.combining c) with hs3
  have hsafe : normalize_text_safe U s = rmSafe none (joinWords (splitWs s3)) := rfl
  have hgood : ∀ w ∈ splitWs s3, goodWord w := splitWs_good s3
  have hr : r = joinWords (mergeCJK (splitWs s3)) := by
    rw [hr0, hsafe, rmSafe_joinWords (splitWs s3) hgood none]
  have hgood' : ∀ v ∈ mergeCJK (splitWs s3), goodWord v := mergeCJK_good _ hgood
  have hcomb : ∀ c ∈ r, (!U.combining c) = true := by
    intro c hc
    rw [hr] at hc
    rcases mem_joinWords c (mergeCJK (splitWs s3)) hc with rfl | ⟨v, hv, hcv⟩
    · rw [hcsp]; rfl
    · obtain ⟨w, hw, hcw⟩ := mem_mergeCJK c (splitWs s3) v hv hcv
      have hmem : c ∈ s3 := mem_splitWs hw hcw
      rw [hs3] at hmem
      exact (List.mem_filter.mp hmem).2
  have hstep3 : (U.lower (U.nfkd r)).filter (fun c => !U.combining c) = r := by
    rw [hn, hlo]
    exact List.filter_eq_self.mpr hcomb
  have hsplit2 : splitWs r = mergeCJK (splitWs s3) := by
    rw [hr]
    exact splitWs_joinWords _ hgood'
  have hmerge2 : mergeCJK (mergeCJK (splitWs s3)) = mergeCJK (splitWs s3) :=
    noJunc_mergeCJK_id _ (mergeCJK_noJunc _ hgood)
  rw [normalize_text_eq_safe U r]
  congr 1
  show rmSafe none
      (joinWords (splitWs ((U.lower (U.nfkd r)).filter (fun c => !U.combining c)))) = r
  rw [hstep3, hsplit2, rmSafe_joinWords _ hgood' none, hmerge2, ← hr]

/-- Claim C9: `normalize_text` is total — it accepts every input
string, the empty one included — and its CJK-adjacency step never reads
outside the string: the faithful Python semantics (negative-index
wrap-around, `IndexError` past the end) returns exactly the
boundary-as-non-CJK result, on every input. -/
theorem normalize_text_total_no_out_of_bounds (U : UniLib) (s : List Char) :
    normalize_text U s = some (normalize_text_safe U s) :=
  normalize_text_eq_safe U s

/-- Claim C8: `normalize_text` is idempotent — normalizing an already
normalized string returns it unchanged — whenever the Unicode library
fixes the normalized output (true of the real `unicodedata`: NFKD is
idempotent, lowercasing is idempotent, and the space combines with
nothing). -/
theorem normalize_text_idempotent (U : UniLib) (s r : List Char)
    (h : normalize_text U s = some r)
    (hn : U.nfkd r = r) (hlo : U.lower r = r) (hcsp : U.combining ' ' = false) :
    normalize_text U r = some r :=
  normalize_text_fixpoint U s r h hn hlo hcsp

/-- Witness for C8 on the double-spaced ASCII input. -/
theorem normalize_text_idempotent_witness :
    normalize_text idUni "a  b".data = some "a b".data ∧
    normalize_text idUni "a b".data = some "a b".data :=
  ⟨by decide,
   normalize_text_idempotent idUni "a  b".data "a b".data (by decide) rfl rfl rfl⟩

/-- Claim C10: `to_binary_seed` is invariant under pre-normalization of
its phrase and passphrase: it normalizes both inputs itself, and
normalization is idempotent under the same Unicode-library fixed-point
hypotheses as C8. -/
theorem to_binary_seed_pre_normalization_invariant (U : UniLib)
    (check : Bip39Checker) (dec : LegacyDecoder) (p pw p' pw' : List Char)
    (hp : normalize_text U p = some p') (hpw : normalize_text U pw = some pw')
    (hn1 : U.nfkd p' = p') (hl1 : U.lower p' = p')
    (hn2 : U.nfkd pw' = pw') (hl2 : U.lower pw' = pw')
    (hcsp : U.combining ' ' = false) :
    to_binary_seed U check dec p pw = to_binary_seed U check dec p' pw' := by
  rw [to_binary_seed, to_binary_seed, hp, hpw,
    normalize_text_fixpoint U p p' hp hn1 hl1 hcsp,
    normalize_text_fixpoint U pw pw' hpw hn2 hl2 hcsp]

/-- Witness for C10 on double-spaced ASCII inputs. -/
theorem to_binary_seed_pre_normalization_invariant_witness :
    to_binary_seed idUni (fun _ => false) (fun _ => false) "a  b".data "p  q".data =
      to_binary_seed idUni (fun _ => false) (fun _ => false) "a b".data "p q".data :=
  to_binary_seed_pre_normalization_invariant idUni (fun _ => false) (fun _ => false)
    "a  b".data "p  q".data "a b".data "p q".data
    (by decide) (by decide) rfl rfl rfl rfl rfl
